import Mathlib

/-!
Verification of the EUV event-script reader (`EUV_read_events.py`).

The program's text-processing core is shallowly embedded here: Python strings
become `List Char`, the regular expressions used by the source are implemented
as executable scanners with the same matching semantics, and each embedded
definition mirrors one source function (named after it where possible).
-/

set_option autoImplicit false

/-! ### Character classes used by the source's regular expressions -/

/-- Python whitespace as matched by `\s` and stripped by `str.strip()`
(ASCII range: space, tab, newline, carriage return, vertical tab, form feed). -/
def isPySpace (c : Char) : Bool :=
  c = ' ' || c = '\t' || c = '\n' || c = '\r' || c = '\x0b' || c = '\x0c'

/-- Characters stripped by `inner.strip("\r\n")` in `extract_block`. -/
def isRN (c : Char) : Bool := c = '\r' || c = '\n'

/-- Word characters of the token pattern `[A-Za-z0-9_]`. -/
def isWordChar (c : Char) : Bool := c.isAlpha || c.isDigit || c = '_'

/-- `str.strip()`: drop leading and trailing whitespace. -/
def stripL (l : List Char) : List Char :=
  ((l.dropWhile isPySpace).reverse.dropWhile isPySpace).reverse

/-- `str.rstrip()`: drop trailing whitespace. -/
def rstripL (l : List Char) : List Char :=
  (l.reverse.dropWhile isPySpace).reverse

/-- `inner.strip("\r\n")`: drop leading and trailing CR/LF characters. -/
def stripRN (l : List Char) : List Char :=
  ((l.dropWhile isRN).reverse.dropWhile isRN).reverse

/-! ### The brace matcher (`find_matching_brace`) -/

/-- Effect of one character on the running depth counter of `find_matching_brace`. -/
def braceDelta (c : Char) : Int :=
  if c = '{' then 1 else if c = '}' then -1 else 0

/-- Core loop of `find_matching_brace`: scan the remaining characters carrying the
running depth; report the offset of the first `}` at which the updated depth is zero. -/
def fmbAux : List Char → Int → Option Nat
  | [], _ => none
  | c :: rest, depth =>
    let d := depth + braceDelta c
    if c = '}' && d = 0 then some 0
    else (fmbAux rest d).map (· + 1)

/-- The source's `find_matching_brace(text, start_pos)`: scan from `start_pos`,
incrementing the depth on `{` and decrementing on `}`; return the index where the
depth first returns to zero, or the sentinel `-1` when no such index exists. -/
def find_matching_brace (text : List Char) (start : Nat) : Int :=
  match fmbAux (text.drop start) 0 with
  | some k => ((start + k : Nat) : Int)
  | none => -1

/-- Net brace depth contributed by a list of characters. -/
def depthList (l : List Char) : Int := (l.map braceDelta).sum

/-- Running depth counter of the spec: value of the counter after processing
`text[i..k]` (both ends inclusive), starting from zero just before index `i`. -/
def runDepth (text : List Char) (i k : Nat) : Int :=
  depthList ((text.drop i).take (k + 1 - i))

theorem depthList_nil : depthList [] = 0 := rfl

theorem depthList_cons (c : Char) (l : List Char) :
    depthList (c :: l) = braceDelta c + depthList l := by
  simp [depthList]

/-- Characterization of the scan loop: with a positive incoming depth, the loop
returns offset `k` exactly when `k` is the first offset at which the running
depth (incoming depth plus the net depth of the processed prefix) reaches zero. -/
theorem fmbAux_eq_some_iff (l : List Char) (d : Int) (hd : 0 < d) (k : Nat) :
    fmbAux l d = some k ↔
      k < l.length ∧ d + depthList (l.take (k + 1)) = 0 ∧
        ∀ m, m < k → d + depthList (l.take (m + 1)) ≠ 0 := by
  induction l generalizing d k with
  | nil =>
    simp [fmbAux]
  | cons c rest ih =>
    by_cases hz : d + braceDelta c = 0
    · have hc : c = '}' := by
        unfold braceDelta at hz
        by_cases h1 : c = '{' <;> by_cases h2 : c = '}' <;> simp [h1, h2] at hz ⊢ <;> omega
      have hstep : fmbAux (c :: rest) d = some 0 := by
        subst hc
        simp [fmbAux]
        exact hz
      rw [hstep]
      constructor
      · rintro h
        have hk : k = 0 := by simpa using h.symm
        subst hk
        refine ⟨by simp, ?_, by omega⟩
        simpa [depthList_cons, depthList_nil] using hz
      · rintro ⟨hlen, hzero, hfirst⟩
        rcases k with _ | k'
        · rfl
        · exact absurd (by simpa [depthList_cons, depthList_nil] using hz)
            (hfirst 0 (Nat.succ_pos _))
    · have hd' : 0 < d + braceDelta c := by
        unfold braceDelta at hz ⊢
        by_cases h1 : c = '{' <;> by_cases h2 : c = '}' <;> simp [h1, h2] at hz ⊢ <;> omega
      have hstep : fmbAux (c :: rest) d = (fmbAux rest (d + braceDelta c)).map (· + 1) := by
        by_cases hc : c = '}'
        · have hz' : ¬(d + braceDelta '}' = 0) := by simpa [hc] using hz
          subst hc
          simp [fmbAux, hz']
        · simp [fmbAux, hc]
      rw [hstep]
      constructor
      · intro h
        rcases k with _ | k'
        · simp at h
        · have h' : fmbAux rest (d + braceDelta c) = some k' := by
            rcases hmap : fmbAux rest (d + braceDelta c) with _ | v
            · simp [hmap] at h
            · simp [hmap] at h
              rw [h]
          have := (ih (d + braceDelta c) hd' k').1 h'
          refine ⟨by simpa using this.1, ?_, ?_⟩
          · simpa [List.take_succ_cons, depthList_cons, add_assoc] using this.2.1
          · intro m hm
            rcases m with _ | m'
            · simpa [List.take_succ_cons, depthList_cons, depthList_nil] using hz
            · intro hcontra
              exact this.2.2 m' (by omega)
                (by simpa [List.take_succ_cons, depthList_cons, add_assoc] using hcontra)
      · rintro ⟨hlen, hzero, hfirst⟩
        rcases k with _ | k'
        · exact absurd (by simpa [List.take_succ_cons, depthList_cons, depthList_nil] using hzero) hz
        · have h' : fmbAux rest (d + braceDelta c) = some k' := by
            refine (ih (d + braceDelta c) hd' k').2 ⟨by simpa using hlen, ?_, ?_⟩
            · simpa [List.take_succ_cons, depthList_cons, add_assoc] using hzero
            · intro m hm hcontra
              exact hfirst (m + 1) (by omega)
                (by simpa [List.take_succ_cons, depthList_cons, add_assoc] using hcontra)
          simp [h']

/-- The scan loop reports "not found" exactly when the running depth never
returns to zero within the buffer (positive incoming depth). -/
theorem fmbAux_eq_none_iff (l : List Char) (d : Int) (hd : 0 < d) :
    fmbAux l d = none ↔ ∀ k, k < l.length → d + depthList (l.take (k + 1)) ≠ 0 := by
  constructor
  · intro h k hk hzero
    have hex : ∃ m, m < l.length ∧ d + depthList (l.take (m + 1)) = 0 := ⟨k, hk, hzero⟩
    have hfind := Nat.find_spec hex
    have hsome : fmbAux l d = some (Nat.find hex) := by
      refine (fmbAux_eq_some_iff l d hd _).2 ⟨hfind.1, hfind.2, ?_⟩
      intro m hm hcontra
      have hmlen : m < l.length := by
        have hle : Nat.find hex ≤ k := Nat.find_min' hex ⟨hk, hzero⟩
        omega
      exact Nat.find_min hex hm ⟨hmlen, hcontra⟩
    rw [h] at hsome
    exact Option.noConfusion hsome
  · intro h
    cases heq : fmbAux l d with
    | none => rfl
    | some k =>
      have := (fmbAux_eq_some_iff l d hd k).1 heq
      exact absurd this.2.1 (h k this.1)

/-- When the scan loop succeeds, the reported offset holds a closing brace. -/
theorem fmbAux_some_braceChar (l : List Char) (d : Int) (k : Nat)
    (h : fmbAux l d = some k) : l.get? k = some '}' := by
  induction l generalizing d k with
  | nil => exact Option.noConfusion h
  | cons c rest ih =>
    simp only [fmbAux] at h
    split at h
    · rename_i hcond
      have hc : c = '}' := by
        rw [Bool.and_eq_true] at hcond
        exact of_decide_eq_true hcond.1
      have hk : k = 0 := by simpa using h.symm
      subst hk
      simp [hc]
    · rcases hmap : fmbAux rest (d + braceDelta c) with _ | k'
      · rw [hmap] at h
        exact Option.noConfusion h
      · rw [hmap] at h
        simp at h
        subst h
        simpa using ih _ _ hmap

/-- Reading a character through `get?` splits the tail of the list at that index. -/
theorem drop_eq_cons_of_get? (text : List Char) (i : Nat) (c : Char)
    (h : text.get? i = some c) : text.drop i = c :: text.drop (i + 1) := by
  induction text generalizing i with
  | nil => exact Option.noConfusion h
  | cons a t ih =>
    cases i with
    | zero =>
      have : a = c := by simpa using h
      simp [this]
    | succ i' =>
      have := ih i' (by simpa using h)
      simpa using this

theorem runDepth_shift (text : List Char) (i m : Nat)
    (hd : text.drop i = '{' :: text.drop (i + 1)) :
    runDepth text i (i + 1 + m) = 1 + depthList ((text.drop (i + 1)).take (m + 1)) := by
  unfold runDepth
  rw [hd]
  have harith : i + 1 + m + 1 - i = m + 2 := by omega
  rw [harith]
  simp [List.take_succ_cons, depthList_cons, braceDelta]

theorem runDepth_self (text : List Char) (i : Nat)
    (hd : text.drop i = '{' :: text.drop (i + 1)) : runDepth text i i = 1 := by
  unfold runDepth
  rw [hd]
  have harith : i + 1 - i = 1 := by omega
  rw [harith]
  simp [depthList_cons, depthList_nil, braceDelta]

/-- Structural facts delivered by a successful brace match starting at a `{`:
the match is strictly to the right, lands on a `}`, the running depth is zero
there, and the depth is nonzero strictly before it. -/
theorem fmb_some_props (text : List Char) (bs m : Nat)
    (hb : text.get? bs = some '{') (h : fmbAux (text.drop bs) 0 = some m) :
    text.get? (bs + m) = some '}' ∧ 0 < m ∧ runDepth text bs (bs + m) = 0 ∧
      ∀ k, bs ≤ k → k < bs + m → runDepth text bs k ≠ 0 := by
  have hdrop : text.drop bs = '{' :: text.drop (bs + 1) := drop_eq_cons_of_get? text bs '{' hb
  rw [hdrop] at h
  have hstep : fmbAux ('{' :: text.drop (bs + 1)) 0 =
      (fmbAux (text.drop (bs + 1)) 1).map (· + 1) := by
    simp [fmbAux, braceDelta]
  rw [hstep] at h
  rcases hmap : fmbAux (text.drop (bs + 1)) 1 with _ | m'
  · rw [hmap] at h
    exact Option.noConfusion h
  · rw [hmap] at h
    simp at h
    subst h
    have hchar : (text.drop (bs + 1)).get? m' = some '}' := fmbAux_some_braceChar _ _ _ hmap
    have hchar' : text.get? (bs + (m' + 1)) = some '}' := by
      rw [List.get?_drop] at hchar
      rw [show bs + (m' + 1) = bs + 1 + m' by omega]
      exact hchar
    have hiff := (fmbAux_eq_some_iff (text.drop (bs + 1)) 1 (by omega) m').1 hmap
    refine ⟨hchar', by omega, ?_, ?_⟩
    · have := runDepth_shift text bs m' hdrop
      rw [show bs + (m' + 1) = bs + 1 + m' by omega, this]
      omega
    · intro k hk1 hk2
      rcases Nat.eq_or_lt_of_le hk1 with heq | hlt
      · rw [← heq, runDepth_self text bs hdrop]
        omega
      · have hk3 : k = bs + 1 + (k - bs - 1) := by omega
        rw [hk3, runDepth_shift text bs _ hdrop]
        have := hiff.2.2 (k - bs - 1) (by omega)
        omega

/-- C1: for a buffer position holding `{`, `find_matching_brace` returns the index
of the `}` at which the running depth counter (incremented on `{`, decremented on
`}`) first returns to zero after the start; when no index after the start brings
the depth back to zero before the buffer ends, it returns the sentinel `-1`. -/
theorem c1_find_matching_brace (text : List Char) (i : Nat)
    (hi : text.get? i = some '{') :
    (∀ j, i < j → text.get? j = some '}' → runDepth text i j = 0 →
        (∀ k, i ≤ k → k < j → runDepth text i k ≠ 0) →
        find_matching_brace text i = (j : Int)) ∧
    ((∀ j, i < j → j < text.length → runDepth text i j ≠ 0) →
        find_matching_brace text i = -1) := by
  have hdrop : text.drop i = '{' :: text.drop (i + 1) := drop_eq_cons_of_get? text i '{' hi
  have hstep : fmbAux (text.drop i) 0 = (fmbAux (text.drop (i + 1)) 1).map (· + 1) := by
    rw [hdrop]
    simp [fmbAux, braceDelta]
  constructor
  · intro j hij hj hz hfirst
    have hjlen : j < text.length := by
      by_contra hcon
      rw [List.get?_eq_none.2 (by omega)] at hj
      exact Option.noConfusion hj
    have hk' : fmbAux (text.drop (i + 1)) 1 = some (j - i - 1) := by
      refine (fmbAux_eq_some_iff _ 1 one_pos _).2 ⟨?_, ?_, ?_⟩
      · rw [List.length_drop]
        omega
      · have hsh := runDepth_shift text i (j - i - 1) hdrop
        rw [show i + 1 + (j - i - 1) = j by omega] at hsh
        omega
      · intro m hm hcontra
        have hsh := runDepth_shift text i m hdrop
        have := hfirst (i + 1 + m) (by omega) (by omega)
        omega
    unfold find_matching_brace
    rw [hstep, hk']
    simp
    omega
  · intro hnone
    have hn : fmbAux (text.drop (i + 1)) 1 = none := by
      refine (fmbAux_eq_none_iff _ 1 one_pos).2 ?_
      intro k hk hzero
      have hsh := runDepth_shift text i k hdrop
      rw [List.length_drop] at hk
      have := hnone (i + 1 + k) (by omega) (by omega)
      omega
    unfold find_matching_brace
    rw [hstep, hn]
    rfl

theorem c1_find_matching_brace_witness :
    find_matching_brace "\x7bab\x7d".data 0 = 3 ∧ find_matching_brace "\x7ba".data 0 = -1 := by
  constructor
  · exact (c1_find_matching_brace "\x7bab\x7d".data 0 (by decide)).1 3 (by decide) (by decide)
      (by decide) (by intro k hk1 hk2; interval_cases k <;> decide)
  · exact (c1_find_matching_brace "\x7ba".data 0 (by decide)).2
      (by
        intro j hj1 hj2
        rw [show ("\x7ba".data).length = 2 from rfl] at hj2
        interval_cases j <;> decide)

/-! ### Block extraction (`extract_block`, `extract_option_blocks`) -/

/-- Head match for the pattern `keyword\s*=\s*\{` (as compiled in `extract_block`):
if the buffer starts with the keyword, then optional whitespace, `=`, optional
whitespace and `{`, return the index of that `{`; the pattern imposes no word
boundary before the keyword. -/
def kwHeadBrace (kw l : List Char) : Option Nat :=
  if l.take kw.length = kw then
    match (l.drop kw.length).dropWhile isPySpace with
    | '=' :: r3 =>
      match r3.dropWhile isPySpace with
      | '{' :: _ => some (l.length - (r3.dropWhile isPySpace).length)
      | _ => none
    | _ => none
  else none

/-- Leftmost search (`re.search`) for `keyword\s*=\s*\{`: returns the absolute
index of the opening brace of the first match. -/
def searchKW (kw : List Char) : List Char → Option Nat
  | [] => kwHeadBrace kw []
  | c :: t =>
    match kwHeadBrace kw (c :: t) with
    | some off => some off
    | none => (searchKW kw t).map (· + 1)

theorem kwHeadBrace_nil (kw : List Char) : kwHeadBrace kw [] = none := by
  cases kw <;> simp [kwHeadBrace]

theorem suffix_get_head (l s : List Char) (h : s <:+ l) (c : Char) (t' : List Char)
    (hs : s = c :: t') : l.get? (l.length - s.length) = some c := by
  obtain ⟨t, ht⟩ := h
  subst ht
  rw [List.length_append]
  rw [show t.length + s.length - s.length = t.length by omega]
  rw [List.get?_append_right (by omega)]
  rw [show t.length - t.length = 0 by omega]
  rw [hs]
  rfl

/-- A successful head match points at an opening brace. -/
theorem kwHeadBrace_get (kw l : List Char) (off : Nat)
    (h : kwHeadBrace kw l = some off) : l.get? off = some '{' := by
  unfold kwHeadBrace at h
  split at h
  · split at h
    · rename_i r3 heq2
      split at h
      · rename_i t4 heq3
        have hsuffix : r3.dropWhile isPySpace <:+ l := by
          refine List.IsSuffix.trans (List.dropWhile_suffix _) ?_
          have h1 : r3 <:+ ('=' :: r3) := List.suffix_cons '=' r3
          have h2 : ('=' :: r3) <:+ l.drop kw.length := by
            rw [← heq2]
            exact List.dropWhile_suffix _
          exact (h1.trans h2).trans (List.drop_suffix _ _)
        have hoff : off = l.length - (r3.dropWhile isPySpace).length := by
          have := h
          simpa using this.symm
        rw [hoff]
        exact suffix_get_head l _ hsuffix '{' t4 heq3
      · exact Option.noConfusion h
    · exact Option.noConfusion h
  · exact Option.noConfusion h

/-- A successful search points at an opening brace. -/
theorem searchKW_get (kw text : List Char) (off : Nat)
    (h : searchKW kw text = some off) : text.get? off = some '{' := by
  induction text generalizing off with
  | nil =>
    rw [searchKW, kwHeadBrace_nil] at h
    exact Option.noConfusion h
  | cons c t ih =>
    rw [searchKW] at h
    split at h
    · rename_i off0 heq
      have hoo : off0 = off := by simpa using h
      rw [← hoo]
      exact kwHeadBrace_get kw (c :: t) off0 heq
    · rcases hmap : searchKW kw t with _ | off'
      · rw [hmap] at h
        exact Option.noConfusion h
      · rw [hmap] at h
        simp at h
        subst h
        simpa using ih off' hmap

/-- The source's `extract_block(text, keyword)`: search for the first occurrence of
`keyword\s*=\s*\{`, match the brace, and return the inner text with leading and
trailing CR/LF stripped (`inner.strip("\r\n")`); `None` when the keyword pattern
does not occur or the brace has no match. -/
def extract_block (text kw : List Char) : Option (List Char) :=
  match searchKW kw text with
  | none => none
  | some bs =>
    let be := find_matching_brace text bs
    if be = -1 then none
    else some (stripRN ((text.drop (bs + 1)).take (be.toNat - (bs + 1))))

/-- C6 (amended): a successful `extract_block` returns the substring strictly
between the matched `{` and the `}` at which the nesting depth first returns to
zero, except that leading and trailing CR/LF characters are stripped from it. -/
theorem c6_extract_block_inner (text kw s : List Char)
    (h : extract_block text kw = some s) :
    ∃ bs be : Nat, text.get? bs = some '{' ∧ text.get? be = some '}' ∧ bs < be ∧
      find_matching_brace text bs = (be : Int) ∧ runDepth text bs be = 0 ∧
      (∀ k, bs ≤ k → k < be → runDepth text bs k ≠ 0) ∧
      s = stripRN ((text.drop (bs + 1)).take (be - (bs + 1))) := by
  unfold extract_block at h
  split at h
  · exact Option.noConfusion h
  · rename_i bs hsearch
    have hb : text.get? bs = some '{' := searchKW_get kw text bs hsearch
    rcases hfmb : fmbAux (text.drop bs) 0 with _ | m
    · have : find_matching_brace text bs = -1 := by
        unfold find_matching_brace
        rw [hfmb]
      rw [if_pos (by simp [this])] at h
      exact Option.noConfusion h
    · have hval : find_matching_brace text bs = ((bs + m : Nat) : Int) := by
        unfold find_matching_brace
        rw [hfmb]
      obtain ⟨hclose, hpos, hzero, hfirst⟩ := fmb_some_props text bs m hb hfmb
      refine ⟨bs, bs + m, hb, hclose, by omega, hval, hzero, hfirst, ?_⟩
      simp only [hval] at h
      rw [if_neg (by omega)] at h
      have hss := h.symm
      simp only [Option.some.injEq] at hss
      rw [hss]
      have htn : (((bs + m : Nat) : Int)).toNat = bs + m := by omega
      rw [htn]

theorem c6_extract_block_inner_witness :
    extract_block "k = \x7b\nx\n\x7d".data "k".data = some "x".data ∧
    (∃ bs be : Nat, "k = \x7b\nx\n\x7d".data.get? bs = some '{' ∧
      "k = \x7b\nx\n\x7d".data.get? be = some '}' ∧ bs < be ∧
      find_matching_brace "k = \x7b\nx\n\x7d".data bs = (be : Int) ∧
      runDepth "k = \x7b\nx\n\x7d".data bs be = 0 ∧
      (∀ k, bs ≤ k → k < be → runDepth "k = \x7b\nx\n\x7d".data bs k ≠ 0) ∧
      "x".data = stripRN (("k = \x7b\nx\n\x7d".data.drop (bs + 1)).take (be - (bs + 1)))) :=
  ⟨by decide, c6_extract_block_inner "k = \x7b\nx\n\x7d".data "k".data "x".data (by decide)⟩

/-- C6 counterexample: the claim says the returned innerText is the exact
substring strictly between the matched braces with no characters removed; here
the exact exclusive substring is `"\nx\n"` but `extract_block` returns `"x"`,
because the source strips leading/trailing CR/LF from the inner text. -/
theorem c6_counterexample :
    extract_block "k = \x7b\nx\n\x7d".data "k".data = some "x".data ∧
    find_matching_brace "k = \x7b\nx\n\x7d".data 4 = 8 ∧
    ("k = \x7b\nx\n\x7d".data.drop 5).take 3 = "\nx\n".data ∧
    "x".data ≠ "\nx\n".data := by
  refine ⟨by decide, by decide, by decide, by decide⟩


/-! ### Repeated option blocks (`extract_option_blocks`) -/

/-- Single pass of `str.splitlines()` (modelled for the LF, CRLF and CR line
boundaries occurring in script files): `cur` accumulates the current line in
reverse; a trailing line boundary produces no extra empty line. -/
def splitlinesAux (cur : List Char) : List Char → List (List Char)
  | [] => if cur.isEmpty then [] else [cur.reverse]
  | '\r' :: '\n' :: t => cur.reverse :: splitlinesAux [] t
  | '\r' :: t => cur.reverse :: splitlinesAux [] t
  | '\n' :: t => cur.reverse :: splitlinesAux [] t
  | c :: t => splitlinesAux (c :: cur) t

/-- `str.splitlines()` on a character buffer. -/
def splitlinesL (l : List Char) : List (List Char) := splitlinesAux [] l

/-- Anchored match for `field\s*=\s*([^\s#]+)` (`re.match` in the option-block
line loop): the line starts with the field name, optional whitespace, `=`,
optional whitespace, then a nonempty greedy run of non-space non-`#` characters,
which is returned as the captured value. -/
def matchAssign (field s : List Char) : Option (List Char) :=
  if s.take field.length = field then
    match (s.drop field.length).dropWhile isPySpace with
    | '=' :: r =>
      let v := (r.dropWhile isPySpace).takeWhile (fun c => !isPySpace c && !(c = '#'))
      if v = [] then none else some v
    | _ => none
  else none

/-- Result shape of `extract_option_blocks`: option key (`name = ...`), kept code
lines, and `custom_tooltip` keys. -/
structure OptionBlock where
  name : Option (List Char)
  lines : List (List Char)
  tooltips : List (List Char)
deriving DecidableEq

/-- Per-line loop of `extract_option_blocks`: blank lines are dropped, comment
lines are kept verbatim, `name =` assignments set the option key (the source
iterates forward and overwrites, so the last assignment wins), `custom_tooltip =`
assignments accumulate, and all other lines are kept verbatim. -/
def procLines : List (List Char) → OptionBlock
  | [] => ⟨none, [], []⟩
  | raw :: rest =>
    let stripped := stripL (rstripL raw)
    let r := procLines rest
    if stripped = [] then r
    else if stripped.head? = some '#' then { r with lines := raw :: r.lines }
    else
      match matchAssign "name".data stripped with
      | some v =>
        { r with name := match r.name with | some w => some w | none => some v }
      | none =>
        match matchAssign "custom_tooltip".data stripped with
        | some v => { r with tooltips := v :: r.tooltips }
        | none => { r with lines := raw :: r.lines }

/-- Scan loop of `extract_option_blocks`: repeatedly search `option\s*=\s*\{`,
match the brace, collect the fully-stripped inner text's processed lines, and
resume after the closing brace; stop on a failed search or a failed brace match.
The scan advances at least one character per round, so the fuel `l.length + 1`
supplied by `extract_option_blocks` never runs out. -/
def extractOptsAux (fuel : Nat) (l : List Char) : List OptionBlock :=
  match fuel with
  | 0 => []
  | fuel' + 1 =>
    match searchKW "option".data l with
    | none => []
    | some bs =>
      let be := find_matching_brace l bs
      if be = -1 then []
      else
        procLines (splitlinesL (stripL ((l.drop (bs + 1)).take (be.toNat - (bs + 1))))) ::
          extractOptsAux fuel' (l.drop (be.toNat + 1))

/-- The source's `extract_option_blocks(text)`. -/
def extract_option_blocks (text : List Char) : List OptionBlock :=
  extractOptsAux (text.length + 1) text

/-- C7 counterexample: the claim says a keyword occurring only inside a longer
identifier must not match, so this extraction should report absence; it does not. -/
theorem c7_counterexample :
    extract_block "my_trigger = \x7b x \x7d".data "trigger".data ≠ none := by
  decide

/-- C7 (amended): block extraction imposes no word boundary before the keyword —
the compiled pattern is just `keyword\s*=\s*\{`, so searching `trigger` inside
`my_trigger = { x }` matches within the longer identifier and returns its block,
and the repeated `option = {` extractor likewise matches inside `my_option`. -/
theorem c7_no_word_boundary :
    extract_block "my_trigger = \x7b x \x7d".data "trigger".data = some " x ".data ∧
    extract_option_blocks "my_option = \x7b a \x7d".data =
      [⟨none, ["a".data], []⟩] := by
  refine ⟨by decide, by decide⟩

/-! ### Event parsing (`parse_events`) -/

/-- One parsed event, as built by `parse_events`: its id (`flavor_fra.N`), its
numeric suffix used as the sort key, and its body block. -/
structure PEvent where
  id : List Char
  num : Nat
  block : List Char
deriving DecidableEq

/-- `str.split "."` on the event id. -/
def splitOnDot : List Char → List (List Char)
  | [] => [[]]
  | '.' :: t => [] :: splitOnDot t
  | c :: t =>
    match splitOnDot t with
    | h :: r => (c :: h) :: r
    | [] => [[c]]

/-- Value of a digit string (`int(...)` on the all-digit capture of `\d+`). -/
def digitsVal (l : List Char) : Nat :=
  l.foldl (fun a c => a * 10 + (c.toNat - '0'.toNat)) 0

/-- The source's `int(event_id.split(".")[1])` with its `except: num = 0`
fallback: take the piece after the first dot; if it is a nonempty digit string
its value is used, otherwise (the only way the conversion could fail here) 0. -/
def eventNumOf (id : List Char) : Nat :=
  match splitOnDot id with
  | _ :: d :: _ => if !d.isEmpty && d.all Char.isDigit then digitsVal d else 0
  | _ => 0

/-- Anchored match of `(prefix\.\d+)\s*=` at the head of the buffer (one
candidate position of `finditer`): returns the digit capture and the remaining
buffer just after the `=` (i.e. after `m.end()`). -/
def tryEventMatch (pref l : List Char) : Option (List Char × List Char) :=
  if l.take pref.length = pref then
    match l.drop pref.length with
    | '.' :: r2 =>
      let ds := r2.takeWhile Char.isDigit
      if ds = [] then none
      else
        match (r2.dropWhile Char.isDigit).dropWhile isPySpace with
        | '=' :: rest => some (ds, rest)
        | _ => none
    | _ => none
  else none

/-- `text.find("{", start)` relative to the scan position. -/
def firstBraceIdx : List Char → Option Nat
  | [] => none
  | c :: t => if c = '{' then some 0 else (firstBraceIdx t).map (· + 1)

/-- Event construction step of `parse_events`: find the next `{` after the
matched `=`, match its brace, and build the event; `None` (the source's
`continue`) when there is no brace or no matching close brace. -/
def mkEvent (pref ds rest : List Char) : Option PEvent :=
  match firstBraceIdx rest with
  | none => none
  | some k =>
    let be := find_matching_brace rest k
    if be = -1 then none
    else some { id := pref ++ '.' :: ds,
                num := eventNumOf (pref ++ '.' :: ds),
                block := (rest.drop (k + 1)).take (be.toNat - (k + 1)) }

/-- `finditer` loop of `parse_events`: at each position try the event-id pattern;
on a match, emit the event (if its braces resolve) and resume after the matched
`=`, otherwise advance one character. Every round consumes at least one
character, so the fuel `l.length + 1` supplied by `scanEvents` never runs out. -/
def scanEventsAux (pref : List Char) (fuel : Nat) (l : List Char) : List PEvent :=
  match fuel with
  | 0 => []
  | fuel' + 1 =>
    match l with
    | [] => []
    | _ :: t =>
      match tryEventMatch pref l with
      | some (ds, rest) =>
        match mkEvent pref ds rest with
        | some e => e :: scanEventsAux pref fuel' rest
        | none => scanEventsAux pref fuel' rest
      | none => scanEventsAux pref fuel' t

/-- Events of the document in textual order (the list built before sorting). -/
def scanEvents (pref l : List Char) : List PEvent :=
  scanEventsAux pref (l.length + 1) l

/-- The source's `EVENT_PREFIX` (`flavor_fra`, derived from `COUNTRY_TAG = "FRA"`). -/
def EVENT_PREF : List Char := "flavor_fra".data

/-- Insertion step of a stable ascending sort by `num`: insert before the first
element whose key is not smaller, so earlier elements precede later equal-key
elements. -/
def ordIns (e : PEvent) : List PEvent → List PEvent
  | [] => [e]
  | f :: l => if e.num ≤ f.num then e :: f :: l else f :: ordIns e l

/-- Stable ascending sort by `num`, modelling `events.sort(key=lambda e: e["num"])`
(Python's sort is stable; stable ascending sorts by the same key agree pointwise,
so this insertion sort computes the same list). -/
def pySortEvents : List PEvent → List PEvent
  | [] => []
  | e :: l => ordIns e (pySortEvents l)

/-- The source's `parse_events(code_text)`: scan for `flavor_fra.N = { ... }`
events, then sort them by numeric suffix. -/
def parse_events (code_text : List Char) : List PEvent :=
  pySortEvents (scanEvents EVENT_PREF code_text)

theorem mem_ordIns (x e : PEvent) (l : List PEvent) :
    x ∈ ordIns e l ↔ x = e ∨ x ∈ l := by
  induction l with
  | nil => simp [ordIns]
  | cons f l ih =>
    by_cases hef : e.num ≤ f.num
    · rw [ordIns, if_pos hef]
      simp
    · rw [ordIns, if_neg hef]
      simp [ih]
      tauto

theorem pairwise_ordIns (e : PEvent) (l : List PEvent)
    (h : l.Pairwise (fun a b => a.num ≤ b.num)) :
    (ordIns e l).Pairwise (fun a b => a.num ≤ b.num) := by
  induction l with
  | nil => simp [ordIns]
  | cons f l ih =>
    rw [List.pairwise_cons] at h
    by_cases hef : e.num ≤ f.num
    · rw [ordIns, if_pos hef]
      rw [List.pairwise_cons]
      refine ⟨?_, by rw [List.pairwise_cons]; exact h⟩
      intro x hx
      rcases List.mem_cons.1 hx with hx | hx
      · rw [hx]
        exact hef
      · exact le_trans hef (h.1 x hx)
    · rw [ordIns, if_neg hef]
      rw [List.pairwise_cons]
      refine ⟨?_, ih h.2⟩
      intro x hx
      rcases (mem_ordIns x e l).1 hx with hx | hx
      · rw [hx]
        omega
      · exact h.1 x hx

theorem pairwise_pySortEvents (l : List PEvent) :
    (pySortEvents l).Pairwise (fun a b => a.num ≤ b.num) := by
  induction l with
  | nil => simp [pySortEvents]
  | cons e l ih => exact pairwise_ordIns e (pySortEvents l) ih

theorem filter_ordIns (k : Nat) (e : PEvent) (l : List PEvent) :
    (ordIns e l).filter (fun x => x.num == k) =
      if e.num == k then e :: l.filter (fun x => x.num == k)
      else l.filter (fun x => x.num == k) := by
  induction l with
  | nil =>
    by_cases he : e.num == k <;> simp [ordIns, List.filter, he]
  | cons f l ih =>
    by_cases hef : e.num ≤ f.num
    · by_cases he : e.num == k <;> simp [ordIns, hef, List.filter, he]
    · by_cases he : (e.num == k) = true
      · have h1 : e.num = k := by simpa using he
        have hfk : (f.num == k) = false := by
          simp only [beq_eq_false_iff_ne, ne_eq]
          omega
        simp [ordIns, hef, List.filter_cons, hfk, ih, he]
      · simp [ordIns, hef, List.filter_cons, ih, he]

theorem filter_pySortEvents (k : Nat) (l : List PEvent) :
    (pySortEvents l).filter (fun x => x.num == k) = l.filter (fun x => x.num == k) := by
  induction l with
  | nil => simp [pySortEvents]
  | cons e l ih =>
    rw [pySortEvents, filter_ordIns]
    by_cases he : e.num == k
    · rw [if_pos he, ih]
      simp [List.filter_cons, he]
    · rw [if_neg he, ih]
      simp [List.filter_cons, he]

/-- Example document whose events appear in source order 1, 10, 2. -/
def c5doc : List Char :=
  "flavor_fra.1 = \x7b a \x7d flavor_fra.10 = \x7b b \x7d flavor_fra.2 = \x7b c \x7d".data

/-- C5: `parse_events` emits events in ascending numeric order of the integer
suffix of their id — regardless of the order in the file (suffixes 1, 10, 2 come
out as 1, 2, 10, not lexicographically) — and the sort is stable: for every
numeric key, the events with that key keep their original textual order. -/
theorem c5_parse_events_sorted_stable :
    (∀ doc : List Char, (parse_events doc).Pairwise (fun a b => a.num ≤ b.num)) ∧
    (∀ (doc : List Char) (k : Nat),
      (parse_events doc).filter (fun e => e.num == k) =
        (scanEvents EVENT_PREF doc).filter (fun e => e.num == k)) ∧
    (parse_events c5doc).map PEvent.id =
      ["flavor_fra.1".data, "flavor_fra.2".data, "flavor_fra.10".data] := by
  refine ⟨?_, ?_, ?_⟩
  · intro doc
    exact pairwise_pySortEvents (scanEvents EVENT_PREF doc)
  · intro doc k
    exact filter_pySortEvents k (scanEvents EVENT_PREF doc)
  · decide

/-- Document with an unbalanced event block and nothing else. -/
def c8docA : List Char := "flavor_fra.1 = \x7b x".data

/-- Document whose first event block is unbalanced while a later event is fine. -/
def c8docB : List Char := "flavor_fra.1 = \x7b flavor_fra.2 = \x7b a \x7d".data

/-- C8: when the brace matcher fails (no matching close brace), `extract_block`
returns `none` rather than failing, for every buffer and keyword; and
`parse_events` treats an unbalanced event block as absent and skips it, so
unbalanced braces are never fatal — in particular a later well-formed event is
still parsed. -/
theorem c8_unbalanced_nonfatal (text kw : List Char) (bs : Nat)
    (hs : searchKW kw text = some bs)
    (hfail : find_matching_brace text bs = -1) :
    extract_block text kw = none ∧
    parse_events c8docA = [] ∧
    parse_events c8docB = [⟨"flavor_fra.2".data, 2, " a ".data⟩] := by
  refine ⟨?_, by decide, by decide⟩
  unfold extract_block
  rw [hs]
  simp [hfail]

theorem c8_unbalanced_nonfatal_witness :
    searchKW "k".data "k = \x7b x".data = some 4 ∧
    find_matching_brace "k = \x7b x".data 4 = -1 ∧
    extract_block "k = \x7b x".data "k".data = none :=
  ⟨by decide, by decide,
    (c8_unbalanced_nonfatal "k = \x7b x".data "k".data 4 (by decide) (by decide)).1⟩

/-! ### Token translation (`translate_code_tokens`) -/

/-- Embeds the source dictionary `SUBJECT_MAP` as an association list (first match wins;
the source dict literal has no duplicate keys, so lookup semantics agree). -/
def SUBJECT_MAP : List (String × String) := [
  ("stability", "稳定度"),
  ("legitimacy", "正统性"),
  ("cultural_influence", "文化影响"),
  ("pop_satisfaction", "人群满意度"),
  ("prestige", "威望"),
  ("estate_satisfaction", "阶级满意度"),
  ("war_exhaustion", "厌战度"),
  ("government_power", "正统性"),
  ("liberty_desire", "独立倾向")]

/-- Embeds the source dictionary `LEVEL_MAP` as an association list (first match wins;
the source dict literal has no duplicate keys, so lookup semantics agree). -/
def LEVEL_MAP : List (String × String) := [
  ("weak", "轻微"),
  ("mild", "小幅"),
  ("severe", "严重"),
  ("extreme", "极大"),
  ("ultimate", "极端")]

/-- Embeds the source dictionary `SIGN_MAP` as an association list (first match wins;
the source dict literal has no duplicate keys, so lookup semantics agree). -/
def SIGN_MAP : List (String × String) := [
  ("bonus", "提升"),
  ("penalty", "降低"),
  ("plus", "增加")]

/-- Embeds the source dictionary `CODE_TOKEN_MAP` as an association list (first match wins;
the source dict literal has no duplicate keys, so lookup semantics agree). -/
def CODE_TOKEN_MAP : List (String × String) := [
  ("OR", "或"),
  ("AND", "且"),
  ("NOT", "非"),
  ("if", "如果"),
  ("else", "否则"),
  ("yes", "是"),
  ("no", "否"),
  ("tag", "标签"),
  ("value", "数值"),
  ("count", "数量"),
  ("min", "最小值"),
  ("max", "最大值"),
  ("order_by", "排序依据"),
  ("scale", "倍率"),
  ("is_situation_active", "处于局势"),
  ("has_ruler", "存在统治者"),
  ("has_regent", "存在摄政"),
  ("country_exists", "存在国家"),
  ("dynasty_exists", "存在宗族"),
  ("dynasty", "宗族"),
  ("owns", "拥有"),
  ("own_entire_province", "完全拥有省份"),
  ("any_owned_location", "拥有任一地块"),
  ("any_owned_rural_location", "拥有任一乡村地块"),
  ("every_owned_location", "所有已拥有地块"),
  ("every_owned_rural_location", "所有已拥有乡村地块"),
  ("add_country_modifier", "添加国家修正"),
  ("has_country_modifier", "拥有国家修正"),
  ("has_variable", "存在变量"),
  ("has_global_variable", "拥有全局变量"),
  ("has_a_parliamentary_system", "拥有议会制度"),
  ("any_active_disaster", "任一激活灾难"),
  ("has_estate_privilege", "拥有阶级特权"),
  ("has_estate", "拥有阶级"),
  ("has_location_modifier", "拥有省份修正"),
  ("has_building", "拥有建筑"),
  ("has_building_with_at_least_one_level", "拥有至少一级建筑"),
  ("has_mutual_scripted_relation", "拥有自定义关系"),
  ("has_character_modifier", "拥有角色修正"),
  ("has_trait", "拥有特质"),
  ("has_tribal_government", "为部落政体"),
  ("has_colonial_charters", "拥有殖民宪章"),
  ("has_unlocked_global_law_trigger", "已解锁全局法律"),
  ("has_rebel", "存在叛军"),
  ("has_heir", "拥有继承人"),
  ("has_consort", "拥有配偶"),
  ("has_policy", "拥有政策"),
  ("has_reform", "拥有改革"),
  ("has_law", "拥有法律"),
  ("exists", "存在"),
  ("in_union_with", "联统"),
  ("is_subject_of", "宗主国为"),
  ("is_independent_or_autonomous_subject", "为独立或自治国家"),
  ("is_allied_with", "与…结盟"),
  ("is_rival_of", "视为劲敌"),
  ("is_neighbor_of", "是邻国"),
  ("create_alliance", "建立同盟"),
  ("add_casus_belli", "添加宣战理由"),
  ("add_opinion", "添加态度"),
  ("add_opinion_mutual_effect", "相互添加态度"),
  ("reverse_add_opinion", "反向添加态度"),
  ("add_antagonism", "添加敌意"),
  ("any_neighbor_country", "任一邻国"),
  ("every_neighbor_country", "所有邻国"),
  ("any_country", "任何国家"),
  ("every_country", "所有国家"),
  ("every_other_country", "所有其他国家"),
  ("any_other_country", "任一其他国家"),
  ("every_known_country", "所有已知国家"),
  ("every_subject", "所有附属国"),
  ("any_international_organizations_member_of", "任一所属国际组织"),
  ("add_country_to_international_organization", "加入国际组织"),
  ("has_member", "存在成员国"),
  ("is_ai", "由 AI 控制"),
  ("is_subject", "是属国"),
  ("great_power_score", "列强分"),
  ("is_member_of_international_organization", "是国际组织成员"),
  ("add_trust", "添加信任"),
  ("add_liberty_desire", "独立倾向变化"),
  ("stability", "稳定度"),
  ("at_war", "处于战争"),
  ("is_at_war_with", "与…处于战争"),
  ("is_during_bankruptcy", "处于破产状态"),
  ("num_loans", "贷款数量"),
  ("gold", "金钱"),
  ("add_gold", "金钱变化"),
  ("change_gold_effect", "金钱变化效果"),
  ("add_inflation", "通货膨胀变化"),
  ("government_power", "政府权力"),
  ("add_government_power", "政府权力变化"),
  ("research_progress", "科研进度"),
  ("add_research_progress", "科研进度变化"),
  ("add_rebel_progress", "叛乱进度变化"),
  ("add_army_tradition", "陆军传统变化"),
  ("add_core", "获得核心"),
  ("add_migration", "迁移变化"),
  ("add_pop_size", "人口规模变化"),
  ("add_temporary_demand", "增加临时需求"),
  ("change_prosperity", "繁荣度变化"),
  ("change_variable", "变量变化"),
  ("change_societal_value", "社会价值观变化"),
  ("change_government_type", "更改政体"),
  ("change_province_integration", "省份融入度变化"),
  ("change_integration_level", "整合等级变化"),
  ("add_stability", "稳定度变化"),
  ("add_legitimacy", "正统性变化"),
  ("add_estate_satisfaction", "阶级满意度变化"),
  ("add_pop_satisfaction", "人群满意度变化"),
  ("add_prestige", "威望变化"),
  ("add_war_exhaustion", "厌战度变化"),
  ("in_civil_war", "处于内战"),
  ("construct_building", "修建建筑"),
  ("building_type", "建筑类型"),
  ("destroy_building", "摧毁建筑"),
  ("in_siege", "在围攻中"),
  ("add_adm", "增加行政"),
  ("add_dip", "增加外交"),
  ("add_mil", "增加军事"),
  ("create_character", "创建角色"),
  ("create_mercenary", "创建雇佣兵团"),
  ("create_rebel", "创建叛军"),
  ("create_named_dynasty", "创建命名宗族"),
  ("create_country_from_location", "从地点创建国家"),
  ("create_location_country_from_province", "从省份创建地点国家"),
  ("first_name", "名"),
  ("last_name", "姓"),
  ("adm", "行政"),
  ("dip", "外交"),
  ("mil", "军事"),
  ("birth_date", "出生日期"),
  ("birth_location", "出身地点"),
  ("artist_skill", "艺术家能力"),
  ("artist", "艺术家类型"),
  ("estate", "阶级"),
  ("any_child", "任一孩子"),
  ("random_child", "随机孩子"),
  ("any_cardinal_in_country", "任一境内枢机主教"),
  ("is_sibling_of", "是兄弟姐妹"),
  ("is_child_of", "是…的子女"),
  ("is_alive", "存活"),
  ("is_female", "女性"),
  ("is_male", "男性"),
  ("is_adult", "成年人"),
  ("age_in_years", "年龄"),
  ("is_ruler", "是统治者"),
  ("is_heir", "是继承人"),
  ("is_courtier", "是廷臣"),
  ("heir", "继承人"),
  ("owner", "所有者"),
  ("father", "父亲"),
  ("mother", "母亲"),
  ("add_trait", "添加特质"),
  ("kill_character_silently", "悄然杀死角色"),
  ("banish_character", "放逐角色"),
  ("move_country", "迁往国家"),
  ("set_new_ruler", "设置新统治者"),
  ("set_regent", "设为摄政"),
  ("set_nickname", "设置绰号"),
  ("character", "角色"),
  ("target_character", "目标角色"),
  ("add_character_modifier", "添加角色修正"),
  ("create_in_limbo", "火星人"),
  ("religion", "宗教"),
  ("culture", "文化"),
  ("religion_percentage", "宗教人口比例"),
  ("religion_percentage_in_country", "国家宗教百分比"),
  ("add_cultural_influence", "文化影响变化"),
  ("add_religious_influence", "宗教影响力变化"),
  ("religious_influence", "宗教影响力"),
  ("change_pop_allegiance", "人群效忠变化"),
  ("create_art", "创建艺术品"),
  ("quality", "品质"),
  ("has_embraced_institution", "已接纳思潮"),
  ("is_religion_enabled", "宗教已启用"),
  ("change_character_religion", "改变角色宗教"),
  ("change_character_culture", "改变角色文化"),
  ("every_pop", "所有人群"),
  ("has_advance", "拥有革新"),
  ("province_definition", "省份"),
  ("region", "大区"),
  ("area", "区域"),
  ("continent", "洲"),
  ("location", "地点"),
  ("capital", "首都"),
  ("is_capital", "为首都"),
  ("is_coastal", "为沿海"),
  ("is_core_of", "为核心省份"),
  ("is_city", "为城市"),
  ("has_discovered", "已发现"),
  ("is_discovered_by", "被…发现"),
  ("is_huron_country", "为休伦国家"),
  ("is_iroquois_country", "为易洛魁国家"),
  ("any_location_in_region", "区域内任一地点"),
  ("any_location_in_area", "地区内任一地点"),
  ("any_location_in_province", "省内任一地点"),
  ("any_exploration_from_country", "任一本国探险"),
  ("random_location_in_area", "区域内随机地点"),
  ("random_location_in_region", "大区内随机地点"),
  ("every_location_in_area", "区域内所有地点"),
  ("every_location_in_province", "省内所有地点"),
  ("work_of_art_exists", "存在艺术品"),
  ("any_work_of_art_in_location", "地点内任一艺术品"),
  ("every_work_of_art_in_location", "地点内所有艺术品"),
  ("ordered_owned_location", "排序后的已拥有地点"),
  ("ordered_country", "排序后的国家"),
  ("market", "市场"),
  ("every_province", "任何省份"),
  ("province", "省"),
  ("historical_option", "历史选项"),
  ("root", "本国"),
  ("this", "该对象"),
  ("ruler", "统治者"),
  ("regent", "摄政"),
  ("ruler_or_regent", "统治者或摄政"),
  ("set_variable", "设置变量"),
  ("set_global_variable", "设置全局变量"),
  ("remove_variable", "移除变量"),
  ("target", "目标"),
  ("type", "类型"),
  ("limit", "限制范围"),
  ("modifier", "修正"),
  ("group", "组"),
  ("years", "年限"),
  ("months", "月数"),
  ("mode", "模式"),
  ("add", "添加"),
  ("ai_chance", "AI倾向"),
  ("factor", "强度"),
  ("hidden_effect", "隐藏效果"),
  ("base", "基础"),
  ("disaster_type", "灾难类型"),
  ("text", "文本"),
  ("random_list", "随机列表"),
  ("trigger_if", "条件触发"),
  ("trigger_else", "否则触发"),
  ("trigger_event_silently", "静默触发事件"),
  ("trigger_event_non_silently", "触发事件"),
  ("show_as_tooltip", "显示为提示"),
  ("remove_reform", "移除改革"),
  ("remove_relation", "移除关系"),
  ("unlock_estate_privilege_effect", "解锁阶级特权"),
  ("unlock_government_reform_effect", "解锁政府改革"),
  ("unlock_law_effect", "解锁法律"),
  ("unlock_policy_effect", "解锁政策"),
  ("add_policy", "添加政策"),
  ("save_scope_as", "保存作用域"),
  ("amount", "数量"),
  ("scope", "作用域"),
  ("percent", "百分比"),
  ("controller", "控制者"),
  ("societal_value_move_to_right", "向右偏移"),
  ("societal_value_move_to_left", "向左偏移")]

/-- `dict.get(key, default)`. -/
def dictGet (m : List (String × String)) (k d : String) : String :=
  (m.lookup k).getD d

/-- Subject characters `[a-zA-Z_]` of `SUBJECT_LEVEL_SIGN_RE`. -/
def isSubjChar (c : Char) : Bool := c.isAlpha || c = '_'

/-- The intensity alternatives of `SUBJECT_LEVEL_SIGN_RE`. -/
def LEVEL_WORDS : List String := ["weak", "mild", "severe", "extreme", "ultimate"]

/-- The sign alternatives of `SUBJECT_LEVEL_SIGN_RE`. -/
def SIGN_WORDS : List String := ["bonus", "penalty", "plus"]

/-- Tail test of `SUBJECT_LEVEL_SIGN_RE` after the subject group: the remainder
must be exactly `_<level>_<sign>` up to the anchored end of the token. -/
def slsTail (rest : List Char) : Option (String × String) :=
  LEVEL_WORDS.findSome? fun lvl =>
    SIGN_WORDS.findSome? fun sgn =>
      if rest = '_' :: (lvl.data ++ '_' :: sgn.data) then some (lvl, sgn) else none

/-- Full anchored match of `SUBJECT_LEVEL_SIGN_RE =
`^([a-zA-Z_]+)_(weak|mild|severe|extreme|ultimate)_(bonus|penalty|plus)$`:
the greedy subject group is modelled by trying subject lengths from longest to
shortest, exactly the regex engine's backtracking order. -/
def slsMatch (tok : List Char) : Option (String × String × String) :=
  (List.range tok.length).reverse.findSome? fun k =>
    if k = 0 then none
    else if (tok.take k).all isSubjChar then
      (slsTail (tok.drop k)).map fun p => (String.mk (tok.take k), p.1, p.2)
    else none

/-- The `repl` closure of `translate_code_tokens`: a token matching the
composite `subject_level_sign` pattern is rendered as the concatenation of the
three mapped parts (each falling back to its raw fragment); otherwise the token
is looked up whole in `CODE_TOKEN_MAP`, falling back to itself. -/
def replToken (tok : List Char) : List Char :=
  match slsMatch tok with
  | some (subj, lvl, sgn) =>
    (dictGet SUBJECT_MAP subj subj).data ++ (dictGet LEVEL_MAP lvl lvl).data ++
      (dictGet SIGN_MAP sgn sgn).data
  | none => (dictGet CODE_TOKEN_MAP (String.mk tok) (String.mk tok)).data

/-- Scanner of `TOKEN_RE.sub(repl, line)`: a token is a maximal run of word
characters that starts with a letter or underscore at a word boundary (previous
character not a word character). The first argument holds the reversed
characters of the token being accumulated, the boolean whether the previous
character was a word character. -/
def tcGo : Option (List Char) → Bool → List Char → List Char
  | some tokRev, _, [] => replToken tokRev.reverse
  | some tokRev, _, c :: t =>
    if isWordChar c then tcGo (some (c :: tokRev)) true t
    else replToken tokRev.reverse ++ c :: tcGo none (isWordChar c) t
  | none, _, [] => []
  | none, prevWord, c :: t =>
    if !prevWord && (c.isAlpha || c = '_') then tcGo (some [c]) true t
    else c :: tcGo none (isWordChar c) t

/-- The source's `translate_code_tokens(line)`. -/
def translate_code_tokens (line : List Char) : List Char :=
  tcGo none false line

/-- A buffer that is entirely word characters extends the accumulated token to
the end of the input. -/
theorem tcGo_token_all (rest : List Char) (h : rest.all isWordChar = true)
    (tokRev : List Char) (b : Bool) :
    tcGo (some tokRev) b rest = replToken (tokRev.reverse ++ rest) := by
  induction rest generalizing tokRev b with
  | nil => simp [tcGo]
  | cons c t ih =>
    simp only [List.all_cons, Bool.and_eq_true] at h
    rw [tcGo]
    rw [if_pos h.1]
    rw [ih h.2]
    simp

/-- Shape test for a standalone identifier token (`[A-Za-z_][A-Za-z0-9_]*`). -/
def isIdentToken (l : List Char) : Bool :=
  match l with
  | [] => false
  | c :: rest => (c.isAlpha || c = '_') && rest.all isWordChar

/-- C3: every identifier token is first checked against the composite
`subject_level_sign` pattern — on a match the rendering is the concatenation of
the mapped subject, intensity and sign in that fixed order, each part falling
back to its raw English fragment, with no whole-token lookup; concretely,
`stability_mild_penalty` decomposes and renders accordingly, while
`stability_huge_penalty` (unrecognized intensity) is not decomposed and falls
through to the whole-token dictionary (where it is absent, so it passes
through). -/
theorem c3_composite_token_first :
    (∀ (tok : List Char) (subj lvl sgn : String),
      slsMatch tok = some (subj, lvl, sgn) →
      replToken tok = (dictGet SUBJECT_MAP subj subj).data ++
        (dictGet LEVEL_MAP lvl lvl).data ++ (dictGet SIGN_MAP sgn sgn).data) ∧
    slsMatch "stability_mild_penalty".data = some ("stability", "mild", "penalty") ∧
    translate_code_tokens "stability_mild_penalty".data = "稳定度小幅降低".data ∧
    slsMatch "stability_huge_penalty".data = none ∧
    CODE_TOKEN_MAP.lookup (String.mk "stability_huge_penalty".data) = none ∧
    translate_code_tokens "stability_huge_penalty".data = "stability_huge_penalty".data := by
  refine ⟨?_, by decide, by decide, by decide, by decide, by decide⟩
  intro tok subj lvl sgn h
  simp [replToken, h]

theorem c3_composite_token_first_witness :
    slsMatch "stability_mild_penalty".data = some ("stability", "mild", "penalty") ∧
    replToken "stability_mild_penalty".data =
      (dictGet SUBJECT_MAP "stability" "stability").data ++
        (dictGet LEVEL_MAP "mild" "mild").data ++
        (dictGet SIGN_MAP "penalty" "penalty").data :=
  ⟨by decide, c3_composite_token_first.1 "stability_mild_penalty".data
    "stability" "mild" "penalty" (by decide)⟩

/-- C9: a standalone identifier token that does not match the composite pattern
and is absent from the whole-token dictionary renders identical to its source
spelling, so applying the substitution again changes nothing. -/
theorem c9_unmapped_identity (tok : List Char)
    (h1 : isIdentToken tok = true)
    (h2 : slsMatch tok = none)
    (h3 : CODE_TOKEN_MAP.lookup (String.mk tok) = none) :
    translate_code_tokens tok = tok ∧
    translate_code_tokens (translate_code_tokens tok) = translate_code_tokens tok := by
  have hid : translate_code_tokens tok = tok := by
    match tok with
    | [] => simp [isIdentToken] at h1
    | c :: rest =>
      simp only [isIdentToken, Bool.and_eq_true] at h1
      unfold translate_code_tokens
      rw [tcGo]
      rw [if_pos (by simp [h1.1])]
      rw [tcGo_token_all rest h1.2]
      simp only [List.reverse_cons, List.reverse_nil, List.nil_append, List.singleton_append]
      rw [replToken, h2]
      simp [dictGet, h3]
  exact ⟨hid, by rw [hid, hid]⟩

theorem c9_unmapped_identity_witness :
    isIdentToken "frobnicate".data = true ∧
    slsMatch "frobnicate".data = none ∧
    CODE_TOKEN_MAP.lookup (String.mk "frobnicate".data) = none ∧
    translate_code_tokens "frobnicate".data = "frobnicate".data :=
  ⟨by decide, by decide, by decide,
    (c9_unmapped_identity "frobnicate".data (by decide) (by decide) (by decide)).1⟩

/-! ### Logical-header beautification (`beautify_logic_line`) -/

/-- The source's `beautify_logic_line(content, text)`: untouched when the
rendered text strips to nothing or to a lone brace, untouched when the original
stripped content holds both an opening and a closing brace, otherwise rewritten
to a fixed connective phrase when the original stripped content opens with
`OR\s*=\s*\{`, `AND\s*=\s*\{` or `NOT\s*=\s*\{`; all other lines untouched. -/
def beautify_logic_line (content text : List Char) : List Char :=
  let s_content := stripL content
  let s_text := stripL text
  if s_text = [] then text
  else if s_text = ['{'] ∨ s_text = ['}'] then text
  else if ('{' ∈ s_content) ∧ ('}' ∈ s_content) then text
  else if (kwHeadBrace "OR".data s_content).isSome then "满足以下任一条件：".data
  else if (kwHeadBrace "AND".data s_content).isSome then "同时满足以下全部条件：".data
  else if (kwHeadBrace "NOT".data s_content).isSome then "不满足以下条件：".data
  else text

/-- C4 counterexample: the claim says a line whose stripped original content is
exactly `OR = {` always renders to the fixed phrase, but with a blank rendered
text the beautifier returns the text untouched. -/
theorem c4_counterexample :
    stripL "OR = \x7b".data = "OR = \x7b".data ∧
    beautify_logic_line "OR = \x7b".data "".data = "".data ∧
    "".data ≠ "满足以下任一条件：".data := by
  refine ⟨by decide, by decide, by decide⟩

/-- C4 (amended): the rewrite to a fixed connective phrase happens only for
lines whose original stripped content matches a block-opener pattern, and—in
addition to the claim—only when the incoming rendered text is neither blank nor
a lone brace: a line with stripped original content exactly `OR = {` and a
non-blank, non-lone-brace rendered text always renders to the fixed phrase; a
line whose stripped original content contains both braces is untouched; a line
matching none of the three opener patterns is untouched. -/
theorem c4_beautify_gated (content text : List Char) :
    (stripL content = "OR = \x7b".data → stripL text ≠ [] → stripL text ≠ ['{'] →
      stripL text ≠ ['}'] →
      beautify_logic_line content text = "满足以下任一条件：".data) ∧
    (('{' ∈ stripL content ∧ '}' ∈ stripL content) →
      beautify_logic_line content text = text) ∧
    (kwHeadBrace "OR".data (stripL content) = none →
      kwHeadBrace "AND".data (stripL content) = none →
      kwHeadBrace "NOT".data (stripL content) = none →
      beautify_logic_line content text = text) := by
  refine ⟨?_, ?_, ?_⟩
  · intro hc ht1 ht2 ht3
    unfold beautify_logic_line
    rw [hc]
    rw [if_neg ht1]
    rw [if_neg (by rintro (h | h) <;> [exact ht2 h; exact ht3 h])]
    rw [if_neg (by decide)]
    rw [if_pos (by decide)]
  · intro hboth
    unfold beautify_logic_line
    dsimp only
    split_ifs <;> first | rfl | (exfalso; simp_all)
  · intro h1 h2 h3
    unfold beautify_logic_line
    dsimp only
    rw [h1, h2, h3]
    split_ifs <;> first | rfl | simp_all

theorem c4_beautify_gated_witness :
    (stripL "OR = \x7b".data = "OR = \x7b".data ∧ stripL "或 = \x7b".data ≠ []) ∧
    beautify_logic_line "OR = \x7b".data "或 = \x7b".data = "满足以下任一条件：".data :=
  ⟨⟨by decide, by decide⟩,
    (c4_beautify_gated "OR = \x7b".data "或 = \x7b".data).1 (by decide) (by decide)
      (by decide) (by decide)⟩

/-! ### Scope pruning (`cleanup_empty_scopes`) -/

/-- One rendered line as passed to `cleanup_empty_scopes`: original indentation,
original stripped script content, and rendered output text (possibly empty). -/
structure LineInfo where
  leading : List Char
  content : List Char
  text : List Char
deriving DecidableEq

/-- Tail of the conditional-opener pattern after a `?`: `\s*=\s*\{`. -/
def afterQ (l : List Char) : Bool :=
  match l.dropWhile isPySpace with
  | '=' :: r =>
    match r.dropWhile isPySpace with
    | '{' :: _ => true
    | _ => false
  | _ => false

/-- `re.match(r".*\?\s*=\s*\{", c)` as a Boolean: some `?` before any newline is
followed by optional whitespace, `=`, optional whitespace and `{`. -/
def isCondOpener : List Char → Bool
  | [] => false
  | '?' :: rest => afterQ rest || isCondOpener rest
  | '\n' :: _ => false
  | _ :: rest => isCondOpener rest

/-- Line `i` exists and its stripped content matches the conditional-opener shape. -/
def openerAt (lines : List LineInfo) (i : Nat) : Bool :=
  match lines.get? i with
  | some li => isCondOpener (stripL li.content)
  | none => false

/-- Line `j` exists and its stripped content is exactly `}`. -/
def closerAt (lines : List LineInfo) (j : Nat) : Bool :=
  match lines.get? j with
  | some li => stripL li.content == ['}']
  | none => false

/-- Truthiness test `lines[k]["text"] and lines[k]["text"].strip()` of the source. -/
def visibleLine (li : LineInfo) : Bool :=
  !li.text.isEmpty && !(stripL li.text).isEmpty

/-- Line `k` exists and has visible rendered text. -/
def visAt (lines : List LineInfo) (k : Nat) : Bool :=
  match lines.get? k with
  | some li => visibleLine li
  | none => false

/-- Visibility check of the scope body, `for k in range(i + 1, j)`. -/
def hasVisibleBetween (lines : List LineInfo) (i j : Nat) : Bool :=
  (List.range' (i + 1) (j - (i + 1))).any fun k => visAt lines k

/-- Offset of the first line whose stripped content is exactly `}`. -/
def closerIdx : List LineInfo → Option Nat
  | [] => none
  | li :: rest =>
    if stripL li.content == ['}'] then some 0 else (closerIdx rest).map (· + 1)

/-- Index of the first line at or after `start` whose stripped content is exactly
`}` (the source's `while j < n and lines[j]["content"].strip() != "}"`). -/
def findCloserFrom (lines : List LineInfo) (start : Nat) : Option Nat :=
  (closerIdx (lines.drop start)).map (start + ·)

/-- Scan loop of `cleanup_empty_scopes` collecting `to_delete`: at index `i`, an
opener line looks for its first closer `j`; if no line strictly between is
visible, indices `i..j` are collected and the scan resumes at `j + 1`, otherwise
(and in every other case) at `i + 1`. The index advances on every round, so the
fuel `lines.length + 1` supplied by `cleanup_empty_scopes` never runs out. -/
def cleanupScan (lines : List LineInfo) : Nat → Nat → List Nat
  | 0, _ => []
  | fuel + 1, i =>
    if i < lines.length then
      if openerAt lines i then
        match findCloserFrom lines (i + 1) with
        | some j =>
          if hasVisibleBetween lines i j then cleanupScan lines fuel (i + 1)
          else List.range' i (j + 1 - i) ++ cleanupScan lines fuel (j + 1)
        | none => cleanupScan lines fuel (i + 1)
      else cleanupScan lines fuel (i + 1)
    else []

/-- The source's `cleanup_empty_scopes(lines)`: rebuild the list keeping the
lines whose index was not collected for deletion. -/
def cleanup_empty_scopes (lines : List LineInfo) : List LineInfo :=
  let td := cleanupScan lines (lines.length + 1) 0
  (lines.enum.filter fun p => decide (p.1 ∉ td)).map Prod.snd

theorem closerAt_ge_length (lines : List LineInfo) (m : Nat)
    (h : lines.length ≤ m) : closerAt lines m = false := by
  unfold closerAt
  rw [List.get?_eq_none.2 h]

/-- The first-closer offset is exactly the first index with a `}` line. -/
theorem closerIdx_eq_some_iff (l : List LineInfo) (k : Nat) :
    closerIdx l = some k ↔ closerAt l k = true ∧ ∀ m, m < k → closerAt l m = false := by
  induction l generalizing k with
  | nil =>
    simp [closerIdx, closerAt]
  | cons li rest ih =>
    by_cases h : (stripL li.content == ['}']) = true
    · rw [closerIdx, if_pos h]
      cases k with
      | zero => simp [closerAt, h]
      | succ k' =>
        simp only [Option.some.injEq]
        constructor
        · intro hcon
          exact absurd hcon.symm (Nat.succ_ne_zero k')
        · rintro ⟨_, hfirst⟩
          have := hfirst 0 (Nat.succ_pos _)
          rw [show closerAt (li :: rest) 0 = (stripL li.content == ['}']) from rfl] at this
          rw [h] at this
          exact Bool.noConfusion this
    · rw [closerIdx, if_neg h]
      cases k with
      | zero =>
        simp only [Option.map_eq_some']
        constructor
        · rintro ⟨a, _, hcon⟩
          exact absurd hcon (by omega)
        · rintro ⟨hc, _⟩
          rw [show closerAt (li :: rest) 0 = (stripL li.content == ['}']) from rfl] at hc
          exact absurd hc h
      | succ k' =>
        constructor
        · intro hmap
          rcases hm : closerIdx rest with _ | v
          · rw [hm] at hmap
            exact Option.noConfusion hmap
          · rw [hm] at hmap
            simp at hmap
            subst hmap
            have := (ih v).1 hm
            refine ⟨this.1, ?_⟩
            intro m hm'
            cases m with
            | zero =>
              rw [show closerAt (li :: rest) 0 = (stripL li.content == ['}']) from rfl]
              exact Bool.eq_false_iff.2 h
            | succ m' =>
              exact this.2 m' (by omega)
        · rintro ⟨hc, hfirst⟩
          have hr : closerIdx rest = some k' := by
            refine (ih k').2 ⟨hc, ?_⟩
            intro m hm'
            exact hfirst (m + 1) (by omega)
          rw [hr]
          rfl

/-- No closer offset exists exactly when no line is a `}` line. -/
theorem closerIdx_eq_none_iff (l : List LineInfo) :
    closerIdx l = none ↔ ∀ m, closerAt l m = false := by
  induction l with
  | nil =>
    simp [closerIdx, closerAt]
  | cons li rest ih =>
    by_cases h : (stripL li.content == ['}']) = true
    · rw [closerIdx, if_pos h]
      constructor
      · intro hcon
        exact Option.noConfusion hcon
      · intro hall
        have hz := hall 0
        rw [show closerAt (li :: rest) 0 = (stripL li.content == ['}']) from rfl, h] at hz
        exact Bool.noConfusion hz
    · rw [closerIdx, if_neg h]
      constructor
      · intro hmap m
        have hr : closerIdx rest = none := by
          rcases hm : closerIdx rest with _ | v
          · rfl
          · rw [hm] at hmap
            exact Option.noConfusion hmap
        cases m with
        | zero =>
          rw [show closerAt (li :: rest) 0 = (stripL li.content == ['}']) from rfl]
          exact Bool.eq_false_iff.2 h
        | succ m' => exact (ih.1 hr) m'
      · intro hall
        have hr : closerIdx rest = none := ih.2 fun m => hall (m + 1)
        rw [hr]
        rfl

theorem closerAt_drop (lines : List LineInfo) (s k : Nat) :
    closerAt (lines.drop s) k = closerAt lines (s + k) := by
  unfold closerAt
  rw [List.get?_drop]

/-- `findCloserFrom` finds exactly the first closer at or after `start`. -/
theorem findCloserFrom_eq_some_iff (lines : List LineInfo) (s j : Nat) :
    findCloserFrom lines s = some j ↔
      s ≤ j ∧ closerAt lines j = true ∧ ∀ m, s ≤ m → m < j → closerAt lines m = false := by
  unfold findCloserFrom
  constructor
  · intro h
    rcases hm : closerIdx (lines.drop s) with _ | k
    · rw [hm] at h
      exact Option.noConfusion h
    · rw [hm] at h
      simp only [Option.map_some', Option.some.injEq] at h
      subst h
      have := (closerIdx_eq_some_iff (lines.drop s) k).1 hm
      refine ⟨by omega, ?_, ?_⟩
      · rw [← closerAt_drop]
        exact this.1
      · intro m hm1 hm2
        have := this.2 (m - s) (by omega)
        rw [closerAt_drop, show s + (m - s) = m by omega] at this
        exact this
  · rintro ⟨hsj, hc, hfirst⟩
    have hm : closerIdx (lines.drop s) = some (j - s) := by
      refine (closerIdx_eq_some_iff (lines.drop s) (j - s)).2 ⟨?_, ?_⟩
      · rw [closerAt_drop, show s + (j - s) = j by omega]
        exact hc
      · intro m hm'
        rw [closerAt_drop]
        exact hfirst (s + m) (by omega) (by omega)
    rw [hm]
    simp only [Option.map_some', Option.some.injEq]
    omega

/-- `findCloserFrom` reports no closer exactly when no line at or after `start`
is a `}` line. -/
theorem findCloserFrom_eq_none_iff (lines : List LineInfo) (s : Nat) :
    findCloserFrom lines s = none ↔ ∀ m, s ≤ m → closerAt lines m = false := by
  unfold findCloserFrom
  rw [Option.map_eq_none']
  rw [closerIdx_eq_none_iff]
  constructor
  · intro h m hm
    have := h (m - s)
    rw [closerAt_drop, show s + (m - s) = m by omega] at this
    exact this
  · intro h m
    rw [closerAt_drop]
    exact h (s + m) (by omega)

/-- The body-visibility check succeeds exactly when some line strictly between
the opener and the closer is visible. -/
theorem hasVisibleBetween_iff (lines : List LineInfo) (i j : Nat) :
    hasVisibleBetween lines i j = true ↔ ∃ k, i < k ∧ k < j ∧ visAt lines k = true := by
  unfold hasVisibleBetween
  rw [List.any_eq_true]
  constructor
  · rintro ⟨k, hk, hv⟩
    rw [List.mem_range'_1] at hk
    exact ⟨k, by omega, by omega, hv⟩
  · rintro ⟨k, hk1, hk2, hv⟩
    refine ⟨k, ?_, hv⟩
    rw [List.mem_range'_1]
    omega

theorem opener_not_closer (lines : List LineInfo) (j : Nat)
    (h : closerAt lines j = true) : openerAt lines j = false := by
  unfold closerAt at h
  unfold openerAt
  rcases hg : lines.get? j with _ | li
  · rfl
  · rw [hg] at h
    have h' : (stripL li.content == ['}']) = true := h
    have he : stripL li.content = ['}'] := by simpa using h'
    show isCondOpener (stripL li.content) = false
    rw [he]
    rfl

theorem openerAt_lt_length (lines : List LineInfo) (i : Nat)
    (h : openerAt lines i = true) : i < lines.length := by
  unfold openerAt at h
  rcases hg : lines.get? i with _ | li
  · rw [hg] at h
    exact Bool.noConfusion h
  · by_contra hcon
    rw [List.get?_eq_none.2 (by omega)] at hg
    exact Option.noConfusion hg

/-- Everything the scan collects lies at or after the scan position. -/
theorem cleanupScan_lb (lines : List LineInfo) :
    ∀ (fuel s x : Nat), x ∈ cleanupScan lines fuel s → s ≤ x := by
  intro fuel
  induction fuel with
  | zero =>
    intro s x hx
    simp [cleanupScan] at hx
  | succ fuel ih =>
    intro s x hx
    rw [cleanupScan] at hx
    by_cases hlen : s < lines.length
    · rw [if_pos hlen] at hx
      by_cases hop : openerAt lines s = true
      · rw [if_pos hop] at hx
        rcases hfc : findCloserFrom lines (s + 1) with _ | j
        · rw [hfc] at hx
          dsimp only at hx
          have := ih (s + 1) x hx
          omega
        · rw [hfc] at hx
          dsimp only at hx
          have hj : s + 1 ≤ j := ((findCloserFrom_eq_some_iff lines (s + 1) j).1 hfc).1
          by_cases hvis : hasVisibleBetween lines s j = true
          · rw [if_pos hvis] at hx
            have := ih (s + 1) x hx
            omega
          · rw [if_neg hvis] at hx
            rcases List.mem_append.1 hx with hx | hx
            · rw [List.mem_range'_1] at hx
              omega
            · have := ih (j + 1) x hx
              omega
      · rw [if_neg hop] at hx
        have := ih (s + 1) x hx
        omega
    · rw [if_neg hlen] at hx
      simp at hx

/-- A conditional scope whose body renders entirely empty is collected in full:
every index from its opener through its first closer is marked for deletion. -/
theorem cleanupScan_covers (lines : List LineInfo) :
    ∀ (fuel s i j : Nat), lines.length ≤ s + fuel → s ≤ i →
      openerAt lines i = true → findCloserFrom lines (i + 1) = some j →
      (∀ k, i < k → k < j → visAt lines k = false) →
      ∀ x, i ≤ x → x ≤ j → x ∈ cleanupScan lines fuel s := by
  intro fuel
  induction fuel with
  | zero =>
    intro s i j hfuel hsi hop hfc hempty x hx1 hx2
    have := openerAt_lt_length lines i hop
    omega
  | succ fuel ih =>
    intro s i j hfuel hsi hop hfc hempty x hx1 hx2
    have hilen := openerAt_lt_length lines i hop
    rw [cleanupScan]
    rw [if_pos (by omega)]
    by_cases hops : openerAt lines s = true
    · rw [if_pos hops]
      rcases hfcs : findCloserFrom lines (s + 1) with _ | js
      · exfalso
        have hnone := (findCloserFrom_eq_none_iff lines (s + 1)).1 hfcs
        have hj := (findCloserFrom_eq_some_iff lines (i + 1) j).1 hfc
        have h1 := hj.2.1
        have h2 := hnone j (by omega)
        rw [h1] at h2
        exact Bool.noConfusion h2
      · dsimp only
        have hjs := (findCloserFrom_eq_some_iff lines (s + 1) js).1 hfcs
        by_cases hvis : hasVisibleBetween lines s js = true
        · rw [if_pos hvis]
          have hne : ¬ (s = i) := by
            intro he
            have hfc' : findCloserFrom lines (s + 1) = some j := by
              rw [he]
              exact hfc
            rw [hfcs] at hfc'
            have hjj := Option.some.inj hfc'
            obtain ⟨k, hk1, hk2, hkv⟩ := (hasVisibleBetween_iff lines s js).1 hvis
            have hkemp := hempty k (by omega) (by omega)
            rw [hkemp] at hkv
            exact Bool.noConfusion hkv
          exact ih (s + 1) i j (by omega) (by omega) hop hfc hempty x hx1 hx2
        · rw [if_neg hvis]
          by_cases hile : i ≤ js
          · have hj_eq : j = js := by
              by_cases he : i = s
              · have hfc' : findCloserFrom lines (s + 1) = some j := by
                  rw [← he]
                  exact hfc
                rw [hfcs] at hfc'
                exact (Option.some.inj hfc').symm
              · have hcljs : closerAt lines js = true := hjs.2.1
                have hne2 : ¬ (i = js) := by
                  intro he2
                  have ho' := opener_not_closer lines js hcljs
                  rw [← he2, hop] at ho'
                  exact Bool.noConfusion ho'
                have hfci : findCloserFrom lines (i + 1) = some js := by
                  refine (findCloserFrom_eq_some_iff lines (i + 1) js).2
                    ⟨by omega, hcljs, ?_⟩
                  intro m hm1 hm2
                  exact hjs.2.2 m (by omega) hm2
                rw [hfci] at hfc
                exact (Option.some.inj hfc).symm
            rw [hj_eq] at hx2
            refine List.mem_append.2 (Or.inl ?_)
            rw [List.mem_range'_1]
            omega
          · refine List.mem_append.2 (Or.inr ?_)
            exact ih (js + 1) i j (by omega) (by omega) hop hfc hempty x hx1 hx2
    · rw [if_neg hops]
      have hne : ¬ (s = i) := by
        intro he
        rw [he] at hops
        exact hops hop
      exact ih (s + 1) i j (by omega) (by omega) hop hfc hempty x hx1 hx2

/-- A conditional scope with a visible body line never has its opener deleted. -/
theorem cleanupScan_keeps (lines : List LineInfo) :
    ∀ (fuel s i j : Nat), s ≤ i →
      openerAt lines i = true → findCloserFrom lines (i + 1) = some j →
      (∃ k, i < k ∧ k < j ∧ visAt lines k = true) →
      i ∉ cleanupScan lines fuel s := by
  intro fuel
  induction fuel with
  | zero =>
    intro s i j hsi hop hfc hvis hmem
    simp [cleanupScan] at hmem
  | succ fuel ih =>
    intro s i j hsi hop hfc hvis hmem
    rw [cleanupScan] at hmem
    by_cases hlen : s < lines.length
    · rw [if_pos hlen] at hmem
      by_cases hops : openerAt lines s = true
      · rw [if_pos hops] at hmem
        rcases hfcs : findCloserFrom lines (s + 1) with _ | js
        · rw [hfcs] at hmem
          dsimp only at hmem
          by_cases he : i = s
          · rw [he] at hfc
            rw [hfcs] at hfc
            exact Option.noConfusion hfc
          · exact ih (s + 1) i j (by omega) hop hfc hvis hmem
        · rw [hfcs] at hmem
          dsimp only at hmem
          have hjs := (findCloserFrom_eq_some_iff lines (s + 1) js).1 hfcs
          by_cases hvb : hasVisibleBetween lines s js = true
          · rw [if_pos hvb] at hmem
            by_cases he : i = s
            · have := cleanupScan_lb lines fuel (s + 1) i hmem
              omega
            · exact ih (s + 1) i j (by omega) hop hfc hvis hmem
          · rw [if_neg hvb] at hmem
            by_cases he : i = s
            · have hfc' : findCloserFrom lines (s + 1) = some j := by
                rw [← he]
                exact hfc
              rw [hfcs] at hfc'
              have hjj := Option.some.inj hfc'
              obtain ⟨k, hk1, hk2, hkv⟩ := hvis
              have hvb' : hasVisibleBetween lines s js = true := by
                refine (hasVisibleBetween_iff lines s js).2 ⟨k, by omega, by omega, hkv⟩
              exact hvb hvb'
            · by_cases hile : i ≤ js
              · have hcljs : closerAt lines js = true := hjs.2.1
                have hne2 : ¬ (i = js) := by
                  intro he2
                  have ho' := opener_not_closer lines js hcljs
                  rw [← he2, hop] at ho'
                  exact Bool.noConfusion ho'
                have hfci : findCloserFrom lines (i + 1) = some js := by
                  refine (findCloserFrom_eq_some_iff lines (i + 1) js).2
                    ⟨by omega, hcljs, ?_⟩
                  intro m hm1 hm2
                  exact hjs.2.2 m (by omega) hm2
                rw [hfci] at hfc
                have hjj := Option.some.inj hfc
                obtain ⟨k, hk1, hk2, hkv⟩ := hvis
                have hvb' : hasVisibleBetween lines s js = true := by
                  refine (hasVisibleBetween_iff lines s js).2 ⟨k, by omega, by omega, hkv⟩
                exact hvb hvb'
              · rcases List.mem_append.1 hmem with hm | hm
                · rw [List.mem_range'_1] at hm
                  omega
                · exact ih (js + 1) i j (by omega) hop hfc hvis hm
      · rw [if_neg hops] at hmem
        by_cases he : i = s
        · rw [← he] at hops
          exact hops hop
        · exact ih (s + 1) i j (by omega) hop hfc hvis hmem
    · rw [if_neg hlen] at hmem
      simp at hmem

/-- Every collected index lies inside some conditional scope whose opener and
first closer delimit an entirely invisible body. -/
theorem cleanupScan_mem_spec (lines : List LineInfo) :
    ∀ (fuel s x : Nat), x ∈ cleanupScan lines fuel s →
      ∃ p q, p ≤ x ∧ x ≤ q ∧ openerAt lines p = true ∧
        findCloserFrom lines (p + 1) = some q ∧ hasVisibleBetween lines p q = false := by
  intro fuel
  induction fuel with
  | zero =>
    intro s x hx
    simp [cleanupScan] at hx
  | succ fuel ih =>
    intro s x hx
    rw [cleanupScan] at hx
    by_cases hlen : s < lines.length
    · rw [if_pos hlen] at hx
      by_cases hops : openerAt lines s = true
      · rw [if_pos hops] at hx
        rcases hfcs : findCloserFrom lines (s + 1) with _ | js
        · rw [hfcs] at hx
          dsimp only at hx
          exact ih (s + 1) x hx
        · rw [hfcs] at hx
          dsimp only at hx
          by_cases hvb : hasVisibleBetween lines s js = true
          · rw [if_pos hvb] at hx
            exact ih (s + 1) x hx
          · rw [if_neg hvb] at hx
            rcases List.mem_append.1 hx with hm | hm
            · rw [List.mem_range'_1] at hm
              exact ⟨s, js, by omega, by omega, hops, hfcs, Bool.eq_false_iff.2 hvb⟩
            · exact ih (js + 1) x hm
      · rw [if_neg hops] at hx
        exact ih (s + 1) x hx
    · rw [if_neg hlen] at hx
      simp at hx

/-- C2 (amended): per conditional scope — opener `i`, first subsequent lone-`}`
closer `j` — if every line strictly between renders empty then the opener, all
lines between, and the closer are all collected for deletion; if some line
strictly between renders non-empty, the opener itself is never deleted (the
claim's stronger reading fails: lines between and the closer may still be
removed by a nested conditional scope sharing the same closer). -/
theorem c2_cleanup_all_or_opener (lines : List LineInfo) (i j : Nat)
    (hop : openerAt lines i = true)
    (hij : i < j)
    (hcl : closerAt lines j = true)
    (hfirst : ∀ m, i < m → m < j → closerAt lines m = false) :
    ((∀ k, i < k → k < j → visAt lines k = false) →
      ∀ x, i ≤ x → x ≤ j → x ∈ cleanupScan lines (lines.length + 1) 0) ∧
    ((∃ k, i < k ∧ k < j ∧ visAt lines k = true) →
      i ∉ cleanupScan lines (lines.length + 1) 0) := by
  have hfc : findCloserFrom lines (i + 1) = some j :=
    (findCloserFrom_eq_some_iff lines (i + 1) j).2
      ⟨by omega, hcl, fun m hm1 hm2 => hfirst m (by omega) hm2⟩
  constructor
  · intro hempty x hx1 hx2
    exact cleanupScan_covers lines (lines.length + 1) 0 i j (by omega) (by omega)
      hop hfc hempty x hx1 hx2
  · intro hvis
    exact cleanupScan_keeps lines (lines.length + 1) 0 i j (by omega) hop hfc hvis

/-- Line list falsifying C2 as stated: the scope opened at line 0 closes at
line 3 and has the visible line 1 strictly inside it. -/
def c2badLines : List LineInfo :=
  [⟨[], "a ?= \x7b".data, []⟩,
   ⟨[], "b ?= \x7b".data, "V".data⟩,
   ⟨[], "c".data, []⟩,
   ⟨[], "\x7d".data, []⟩]

/-- C2 counterexample: the scope (opener 0, first closer 3) has a non-empty
rendered line strictly inside (line 1), so by the claim none of lines 0..3 may
be deleted; yet the pruner deletes lines 1, 2 and 3 (the inner conditional
scope opened at line 1 shares the closer 3 and has an all-empty body), leaving
only line 0. -/
theorem c2_counterexample :
    openerAt c2badLines 0 = true ∧
    closerAt c2badLines 3 = true ∧
    (∀ m, 0 < m → m < 3 → closerAt c2badLines m = false) ∧
    visAt c2badLines 1 = true ∧
    (1 ∈ cleanupScan c2badLines (c2badLines.length + 1) 0 ∧
      2 ∈ cleanupScan c2badLines (c2badLines.length + 1) 0 ∧
      3 ∈ cleanupScan c2badLines (c2badLines.length + 1) 0) ∧
    cleanup_empty_scopes c2badLines = [⟨[], "a ?= \x7b".data, []⟩] := by
  refine ⟨by decide, by decide, ?_, by decide, by decide, by decide⟩
  intro m h1 h2
  interval_cases m <;> decide

/-- Fully suppressed conditional scope used to instantiate C2's first branch. -/
def c2goodLines : List LineInfo :=
  [⟨[], "r ?= \x7b".data, "若".data⟩,
   ⟨[], "x = y".data, []⟩,
   ⟨[], "\x7d".data, []⟩]

theorem c2_cleanup_all_or_opener_witness :
    (openerAt c2goodLines 0 = true ∧ closerAt c2goodLines 2 = true) ∧
    (0 ∈ cleanupScan c2goodLines (c2goodLines.length + 1) 0 ∧
      1 ∈ cleanupScan c2goodLines (c2goodLines.length + 1) 0 ∧
      2 ∈ cleanupScan c2goodLines (c2goodLines.length + 1) 0) := by
  constructor
  · exact ⟨by decide, by decide⟩
  · have h := c2_cleanup_all_or_opener c2goodLines 0 2 (by decide) (by decide) (by decide)
      (by intro m h1 h2; interval_cases m <;> decide)
    have hemp : ∀ k, 0 < k → k < 2 → visAt c2goodLines k = false := by
      intro k h1 h2
      interval_cases k <;> decide
    exact ⟨h.1 hemp 0 (by omega) (by omega), h.1 hemp 1 (by omega) (by omega),
      h.1 hemp 2 (by omega) (by omega)⟩

/-- C10: an opener with no later lone-`}` line deletes nothing at or after
itself (the unterminated scope and everything after it are kept), and every
deleted index lies between a matched opener and its first closer whose body
renders entirely empty. -/
theorem c10_unterminated_scope (lines : List LineInfo) (i : Nat)
    (hop : openerAt lines i = true)
    (hnoclose : ∀ m, i < m → closerAt lines m = false) :
    (∀ x, i ≤ x → x ∉ cleanupScan lines (lines.length + 1) 0) ∧
    (∀ x, x ∈ cleanupScan lines (lines.length + 1) 0 →
      ∃ p q, p ≤ x ∧ x ≤ q ∧ openerAt lines p = true ∧
        findCloserFrom lines (p + 1) = some q ∧
        hasVisibleBetween lines p q = false) := by
  constructor
  · intro x hix hmem
    obtain ⟨p, q, hpx, hxq, hpop, hpfc, _⟩ :=
      cleanupScan_mem_spec lines (lines.length + 1) 0 x hmem
    have hq := (findCloserFrom_eq_some_iff lines (p + 1) q).1 hpfc
    have hclq := hq.2.1
    by_cases hqi : q = i
    · have ho := opener_not_closer lines q hclq
      rw [hqi, hop] at ho
      exact Bool.noConfusion ho
    · have hlt : i < q := by omega
      have hcon := hnoclose q hlt
      rw [hclq] at hcon
      exact Bool.noConfusion hcon
  · intro x hx
    exact cleanupScan_mem_spec lines (lines.length + 1) 0 x hx

/-- Unterminated fully-suppressed conditional scope. -/
def c10lines : List LineInfo :=
  [⟨[], "r ?= \x7b".data, []⟩,
   ⟨[], "x = y".data, []⟩]

theorem c10_unterminated_scope_witness :
    openerAt c10lines 0 = true ∧
    (0 ∉ cleanupScan c10lines (c10lines.length + 1) 0 ∧
      1 ∉ cleanupScan c10lines (c10lines.length + 1) 0) := by
  have hno : ∀ m, 0 < m → closerAt c10lines m = false := by
    intro m hm
    by_cases h2 : m < 2
    · interval_cases m <;> decide
    · refine closerAt_ge_length c10lines m ?_
      have hlen : c10lines.length = 2 := rfl
      omega
  have h := c10_unterminated_scope c10lines 0 (by decide) hno
  exact ⟨by decide, h.1 0 (by omega), h.1 1 (by omega)⟩
